import Mathlib

/-!
Shallow embedding of the recommendation page (src/recommend.js) of the
Pop Watch Tracker repository, together with proofs about its filter
engine, tag extraction, selectors and presenter.

Conventions of the embedding:
  - JS strings are Lean `String` (a wrapper around `List Char`); the inputs
    we reason about are BMP/ASCII text, where JS UTF-16 code-unit operations
    agree with `Char`-wise operations.
  - JS `undefined`-able fields are `Option`; the JS truthiness of a string
    (`""` is falsy) is modelled explicitly wherever the source relies on it.
  - `Math.random()`-driven indexing is modelled by a `Nat` parameter `r`
    standing for `Math.floor(Math.random() * candidates.length)` (which is
    always `< candidates.length` when the list is non-empty).
  - the single network call is modelled by passing its outcome as an
    `Except`/structure parameter; timeouts, network errors, non-200 statuses
    and parse failures all surface as `Except.error`, exactly as they all
    reach the same `catch` in `selectWithAI`.
  - string helpers (`toLowerCase`, `trim`, `includes`, `split`, `join`,
    `Array.prototype.sort`) are given explicit `List Char` implementations
    mirroring the ECMAScript behaviour, so that every definition evaluates
    by `decide`/`rfl`.
-/

/-- Representation of the polymorphic `tags` field of a show record: the
field may be absent (`undef`), a comma-joined string (`str`), a sequence
(`arr`), or some other/unrecognized value (`other`, e.g. a number or object,
which neither `Array.isArray` nor `typeof === 'string'` accepts). -/
inductive Tags where
  | undef
  | str (s : String)
  | arr (l : List String)
  | other
deriving DecidableEq, Repr

/-- Show record as consumed by src/recommend.js (spec §3 data model). The
`updatedAt` timestamp is a JS number (milliseconds since the epoch), modelled
as `Option Int`; `none` is JS `undefined`. -/
structure ShowRec where
  title : String
  type : String
  status : String
  tags : Tags
  description : Option String
  notes : Option String
  overview : Option String
  posterUrl : Option String
  posterDataUrl : Option String
  updatedAt : Option Int
deriving DecidableEq, Repr

/-- Models the JS idiom `a || b` for a possibly-missing string `a`:
`undefined` and `""` are falsy, any other string is truthy. -/
def jsOrS (a : Option String) (b : String) : String :=
  match a with
  | some s => if s = "" then b else s
  | none => b

/-- Models `show.description || show.notes || show.overview || ''`
(src/recommend.js lines 201 and 313). -/
def descOf (sh : ShowRec) : String :=
  jsOrS sh.description (jsOrS sh.notes (jsOrS sh.overview ""))

/-- Models `String.prototype.toLowerCase` (ASCII/BMP fragment): lower-case
every character. -/
def jsToLower (s : String) : String :=
  String.mk (s.data.map Char.toLower)

/-- Models `String.prototype.trim`: drop leading and trailing whitespace. -/
def jsTrim (s : String) : String :=
  String.mk (((s.data.dropWhile Char.isWhitespace).reverse.dropWhile Char.isWhitespace).reverse)

/-- Normalization applied to every raw tag by the source:
`tag.trim().toLowerCase()` (src/recommend.js lines 79, 81, 151, 153). -/
def normTag (t : String) : String := jsToLower (jsTrim t)

/-- Prepend a character to the first segment of a segment list (used by the
split helpers below). -/
def consHead (c : Char) : List (List Char) → List (List Char)
  | seg :: rest => (c :: seg) :: rest
  | [] => [[c]]

/-- Helper for `splitComma`: split a character list at every comma, keeping
empty segments, exactly like `String.prototype.split(',')`. -/
def splitCommaAux : List Char → List (List Char)
  | [] => [[]]
  | c :: cs =>
    if c = ',' then [] :: splitCommaAux cs
    else consHead c (splitCommaAux cs)

/-- Models `s.split(',')` of JS. -/
def splitComma (s : String) : List String :=
  (splitCommaAux s.data).map (fun cs => String.mk cs)

/-- Raw (un-normalized) tag list a show's `tags` field contributes. Mirrors
the branching of src/recommend.js lines 77-83 and 149-155: a falsy field
(absent, or the empty string) and an unrecognized one contribute nothing;
an array is used as is; a truthy string is split at commas. -/
def rawTags : Tags → List String
  | Tags.undef => []
  | Tags.other => []
  | Tags.str s => if s = "" then [] else splitComma s
  | Tags.arr l => l

/-- Normalized tag list of a `tags` field: every raw tag trimmed and
lower-cased (the `map`/`forEach` bodies of src/recommend.js lines 79, 81,
151, 153). -/
def normTags (tg : Tags) : List String :=
  (rawTags tg).map normTag

/-- Models the JS `Set.prototype.add` step of `extractUniqueTags`: append a
tag unless it is already present. -/
def addTagToSet (acc : List String) (t : String) : List String :=
  if acc.contains t then acc else acc ++ [t]

/-- Insertion-order list of distinct normalized tags of a show collection:
the contents of the `tagSet` built by `extractUniqueTags`
(src/recommend.js lines 74-84). -/
def tagSetOf (shows : List ShowRec) : List String :=
  shows.foldl (fun acc sh => (normTags sh.tags).foldl addTagToSet acc) []

/-- Stable insertion of `x` into a sorted list: `x` goes in front of the
first element `y` with `le x y`. Auxiliary for `jsSort`. -/
def jsInsert {α : Type} (le : α → α → Bool) (x : α) : List α → List α
  | [] => [x]
  | y :: ys => if le x y then x :: y :: ys else y :: jsInsert le x ys

/-- Models `Array.prototype.sort` with a comparator: a stable sort
(guaranteed by ES2019) whose output is ordered by the comparator. `le a b`
stands for "comparator(a,b) ≤ 0", i.e. `a` may be placed before `b`.
Implemented as a right-fold insertion sort, which is stable for ties. -/
def jsSort {α : Type} (le : α → α → Bool) (l : List α) : List α :=
  l.foldr (jsInsert le) []

/-- Lexicographic comparison of character lists, the order in which the JS
default sort comparator puts strings (UTF-16 code-unit order; on BMP text it
is code-point order). -/
def lexLe : List Char → List Char → Bool
  | [], _ => true
  | _ :: _, [] => false
  | a :: as, b :: bs => if a < b then true else if b < a then false else lexLe as bs

/-- String order used by the parameterless `.sort()` of JS. -/
def jsStrLe (a b : String) : Bool := lexLe a.data b.data

/-- Models `extractUniqueTags` (src/recommend.js lines 73-88): collect every
show's normalized tags into a `Set` (insertion-ordered, duplicates dropped),
then `Array.from(tagSet).sort()`. -/
def extractUniqueTags (shows : List ShowRec) : List String :=
  jsSort jsStrLe (tagSetOf shows)

/-- Models `needle` being a prefix of `hay` (helper for `containsSub`). -/
def startsWithList : List Char → List Char → Bool
  | _, [] => true
  | [], _ :: _ => false
  | c :: cs, d :: ds => c == d && startsWithList cs ds

/-- Models `String.prototype.includes`: `containsSub hay needle` is true iff
`needle` occurs contiguously inside `hay`. -/
def containsSub : List Char → List Char → Bool
  | [], needle => needle.isEmpty
  | c :: cs, needle => startsWithList (c :: cs) needle || containsSub cs needle

/-- Models `field && field.toLowerCase().includes(searchQuery)` of the search
filter (src/recommend.js lines 163-165): a falsy (empty) field never hits. -/
def jsIncludes (field q : String) : Bool :=
  field != "" && containsSub (jsToLower field).data q.data

/-- Search hit on an optional field (`show.description`, `show.notes`). -/
def jsOptIncludes (f : Option String) (q : String) : Bool :=
  match f with
  | some d => jsIncludes d q
  | none => false

/-- Models the filter callback of `applyFilters` (src/recommend.js lines
134-173), with its four early-return tests in source order: category,
status, tags (AND over the selected tags), free-text search. `searchQuery`
is the already lower-cased search box value. -/
def matchesFilters (category status searchQuery : String) (selectedTags : List String)
    (sh : ShowRec) : Bool :=
  if (category != "all" && sh.type != category) = true then false
  else if (status != "all" && sh.status != status) = true then false
  else if (decide (selectedTags.length > 0) &&
      !(selectedTags.all (fun t => (normTags sh.tags).contains t))) = true then false
  else if (searchQuery != "" &&
      !(jsIncludes sh.title searchQuery || jsOptIncludes sh.description searchQuery ||
        jsOptIncludes sh.notes searchQuery)) = true then false
  else true

/-- Sort key of the recency sort: `new Date(a.updatedAt || 0)` compared
numerically (src/recommend.js lines 176-180). A missing timestamp is the
falsy `undefined`, so it becomes the epoch value `0`. -/
def sortKey (sh : ShowRec) : Int :=
  sh.updatedAt.getD 0

/-- Comparator relation of the recency sort: `a` may precede `b` iff
`dateB - dateA ≤ 0`, i.e. the sort is descending by `sortKey`. -/
def byRecency (a b : ShowRec) : Bool :=
  decide (sortKey b ≤ sortKey a)

/-- Models `applyFilters` (src/recommend.js lines 120-184): read the filter
selections, keep the shows passing `matchesFilters`, and sort the survivors
by recency (descending `updatedAt`, missing treated as 0). -/
def applyFilters (shows : List ShowRec) (category status search : String)
    (selectedTags : List String) : List ShowRec :=
  let searchQuery := jsToLower search
  jsSort byRecency (shows.filter (matchesFilters category status searchQuery selectedTags))

/-- AI configuration record (src/recommend.js lines 14-21). -/
structure AIConfig where
  provider : String
  hf_key : String
  model : String
  maxCandidates : Nat
  maxPayloadBytes : Nat
  timeoutMs : Nat
deriving DecidableEq, Repr

/-- The compiled-in configuration `AI_CONFIG` of the source. -/
def AI_CONFIG : AIConfig :=
  { provider := "hf"
    hf_key := "PUT_KEY_HERE"
    model := "facebook/bart-large-cnn"
    maxCandidates := 20
    maxPayloadBytes := 8000
    timeoutMs := 8000 }

/-- Short description used in the prompt (src/recommend.js lines 201-204):
the description (or notes, or overview) truncated to 150 characters with an
ellipsis appended when longer. -/
def shortDescOf (sh : ShowRec) : String :=
  let d := descOf sh
  if d.length > 150 then d.take 150 ++ "..." else d

/-- The fixed prompt header string of src/recommend.js line 198. -/
def promptHeader : String :=
  "From the following list of candidate shows (title: short_description), select the single best show for tonight.\nReturn valid JSON only: \x7b\"title\":\"...\",\"description\":\"...\"\x7d\nCandidates:\n"

/-- Models the prompt construction loop of `selectWithAI` (src/recommend.js
lines 198-207) over the already-truncated candidate list. -/
def buildPrompt (limited : List ShowRec) : String :=
  promptHeader ++
    String.join (limited.enum.map
      (fun p => toString (p.1 + 1) ++ ". " ++ p.2.title ++ ": " ++ shortDescOf p.2 ++ "\n"))

/-- Parsed JSON object returned by the text-generation call, as used by
`selectWithAI`: only its `title` field is consulted (`none` models a missing,
non-string or absent field, including a non-object parse result). -/
structure HFResult where
  title : Option String
deriving DecidableEq, Repr

/-- Models `selectRandom` (src/recommend.js lines 295-299): empty list gives
`null`; otherwise index with `r = Math.floor(Math.random() * length)`, which
is uniform over `0 .. length-1` when `Math.random()` is uniform on `[0,1)`. -/
def selectRandom (candidates : List ShowRec) (r : Nat) : Option ShowRec :=
  if candidates.length = 0 then none else candidates[r]?

/-- Models `selectWithAI` (src/recommend.js lines 187-249) with the network
exchange abstracted into its outcome `fetchResult` (`Except.error` covers a
network error, timeout, non-success HTTP status and unparseable response,
which all reach the same `catch`). Every failure path returns
`selectRandom candidates r` over the full (untruncated) candidate list, as
in the source; a successful path returns the first candidate whose title
equals the suggested title case-insensitively. -/
def selectWithAI (cfg : AIConfig) (aiToggle : Bool) (candidates : List ShowRec)
    (fetchResult : Except String HFResult) (r : Nat) : Option ShowRec :=
  if !aiToggle then selectRandom candidates r
  else
    let limitedCandidates := candidates.take cfg.maxCandidates
    let prompt := buildPrompt limitedCandidates
    if prompt.utf8ByteSize > cfg.maxPayloadBytes then selectRandom candidates r
    else if cfg.provider == "hf" then
      if cfg.hf_key == "" || cfg.hf_key == "PUT_KEY_HERE" then selectRandom candidates r
      else
        match fetchResult with
        | Except.error _ => selectRandom candidates r
        | Except.ok result =>
          match result.title with
          | some t =>
            if t == "" then selectRandom candidates r
            else
              match candidates.find? (fun sh => jsToLower sh.title == jsToLower t) with
              | some selectedShow => some selectedShow
              | none => selectRandom candidates r
          | none => selectRandom candidates r
    else selectRandom candidates r

/-- Index of the first occurrence of `c` in a character list. -/
def firstIdxOf (c : Char) : List Char → Option Nat
  | [] => none
  | d :: ds => if d = c then some 0 else (firstIdxOf c ds).map (fun n => n + 1)

/-- Index of the last occurrence of `c` in `cs`. -/
def lastIdxOf (c : Char) (cs : List Char) : Option Nat :=
  (firstIdxOf c cs.reverse).map (fun k => cs.length - 1 - k)

/-- Models the regex match `/\x7b[\s\S]*\x7d/` of src/recommend.js line 279
on a character list: the regex engine takes the leftmost possible start (the
first opening brace followed by a closing one) and, `*` being greedy, extends
the match to the last closing brace of the whole text. -/
def braceSpan (cs : List Char) : Option (List Char) :=
  match firstIdxOf '\x7b' cs, lastIdxOf '\x7d' cs with
  | some i, some j => if i < j then some ((cs.drop i).take (j + 1 - i)) else none
  | _, _ => none

/-- The substring of `s` matched by the JSON-extraction regex of
`fetchHuggingFace`, if any. -/
def braceMatch (s : String) : Option String :=
  (braceSpan s.data).map (fun cs => String.mk cs)

/-- Helper for `specFirstTopLevelSpan`: consume characters after an opening
brace until the closing brace at nesting depth 0. -/
def topLevelSpanAux : Nat → List Char → Option (List Char)
  | _, [] => none
  | depth, c :: cs =>
    if c = '\x7d' then
      if depth = 0 then some [c]
      else (topLevelSpanAux (depth - 1) cs).map (fun t => c :: t)
    else if c = '\x7b' then (topLevelSpanAux (depth + 1) cs).map (fun t => c :: t)
    else (topLevelSpanAux depth cs).map (fun t => c :: t)

/-- Modelled from the spec: the "first top-level brace-delimited span" of a
text blob (spec §4.4) — the span from the first opening brace to the
matching closing brace at brace-nesting depth 0. Defined for comparison with
the source's `braceMatch`; it is not what the code computes. -/
def specFirstTopLevelSpan (s : String) : Option String :=
  match firstIdxOf '\x7b' s.data with
  | some i => (topLevelSpanAux 0 (s.data.drop (i + 1))).map (fun t => String.mk ('\x7b' :: t))
  | none => none

/-- Body of a successful HTTP response: the `ok` flag and
`data[0]?.generated_text` (absent when the JSON body is not an array of
objects with a string `generated_text`). -/
structure HFResponse where
  ok : Bool
  generatedText : Option String
deriving Repr

/-- Models `fetchHuggingFace` (src/recommend.js lines 252-292) after the
network exchange: `net` is the exchange outcome (`Except.error` for a
network failure or timeout-abort), `parseJson` models `JSON.parse` on the
extracted substring (`none` when it would throw). Any non-ok status, missing
match or parse failure is an `Except.error`, which `selectWithAI` catches. -/
def fetchHuggingFace (net : Except String HFResponse)
    (parseJson : String → Option HFResult) : Except String HFResult :=
  match net with
  | Except.error e => Except.error e
  | Except.ok resp =>
    if !resp.ok then Except.error "HTTP error"
    else
      match resp.generatedText with
      | none => Except.error "No valid JSON found in response"
      | some g =>
        match braceMatch g with
        | none => Except.error "No valid JSON found in response"
        | some sub =>
          match parseJson sub with
          | some result => Except.ok result
          | none => Except.error "JSON.parse failure"

/-- Models the fallback `escapeHtml` (src/recommend.js lines 427-437) per
character. The source performs five global single-character replacements in
sequence (`&` first); since no later replacement's target occurs in an
earlier replacement's output and the `&` of later outputs is introduced
after the `&` pass, the sequence equals this character-wise expansion. -/
def escapeChar (c : Char) : List Char :=
  if c = '&' then "&amp;".data
  else if c = '<' then "&lt;".data
  else if c = '>' then "&gt;".data
  else if c = '"' then "&quot;".data
  else if c = '\x27' then "&#039;".data
  else [c]

/-- Models `escapeHtml(unsafe)`: falsy input gives `''`, otherwise every
special character is replaced by its entity. -/
def escapeHtml (s : String) : String :=
  if s = "" then "" else String.mk (s.data.foldr (fun c acc => escapeChar c ++ acc) [])

/-- Sentence boundary characters of the regex `/[.!?]+/`
(src/recommend.js line 314). -/
def isBoundaryChar (c : Char) : Bool :=
  c = '.' || c = '!' || c = '?'

/-- Models `description.split(/[.!?]+/)` on a character list: maximal runs
of boundary characters separate the segments (a run of several boundary
characters is a single separator, as the regex is `+`-quantified). -/
def splitSentencesAux : List Char → List (List Char)
  | [] => [[]]
  | c :: cs =>
    if isBoundaryChar c then
      match cs with
      | c2 :: _ =>
        if isBoundaryChar c2 then splitSentencesAux cs else [] :: splitSentencesAux cs
      | [] => [] :: splitSentencesAux cs
    else consHead c (splitSentencesAux cs)

/-- Models `description.split(/[.!?]+/)` of src/recommend.js line 314. -/
def splitSentences (s : String) : List String :=
  (splitSentencesAux s.data).map (fun cs => String.mk cs)

/-- Models `Array.prototype.join(sep)`. -/
def jsJoin (sep : String) : List String → String
  | [] => ""
  | [x] => x
  | x :: y :: ys => x ++ sep ++ jsJoin sep (y :: ys)

/-- Models the description truncation of `showResult` (src/recommend.js
lines 313-317): when the split yields more than two segments, keep the first
two, re-join them with a period and append one. -/
def truncateDescription (d : String) : String :=
  let sentences := splitSentences d
  if sentences.length > 2 then jsJoin "." (sentences.take 2) ++ "." else d

/-- Rendering outcome of the presenter: the empty-state panel, or the result
card abstracted to its data — the poster URL (empty when no poster; the
template omits the `img` tag then), the HTML-escaped title and the
HTML-escaped truncated description. -/
inductive RenderResult where
  | emptyState
  | card (posterUrl titleHtml descriptionHtml : String)
deriving DecidableEq, Repr

/-- Models `showResult` (src/recommend.js lines 302-343): a `null` show
shows the empty-state panel; otherwise the card is rendered from
`posterDataUrl || posterUrl || ''`, `escapeHtml(show.title)` and the escaped
truncated description. -/
def showResult : Option ShowRec → RenderResult
  | none => RenderResult.emptyState
  | some sh =>
    RenderResult.card (jsOrS sh.posterDataUrl (jsOrS sh.posterUrl ""))
      (escapeHtml sh.title)
      (escapeHtml (truncateDescription (descOf sh)))

/-- Sample show used by concrete witnesses and counterexamples. -/
def mkShow (title : String) (tg : Tags) (upd : Option Int) : ShowRec :=
  { title := title, type := "movie", status := "watching", tags := tg,
    description := none, notes := none, overview := none,
    posterUrl := none, posterDataUrl := none, updatedAt := upd }

/-- Failure condition of the AI-assisted path, as enumerated by the spec:
the provider is not the supported one, the API credential is missing (empty
or the placeholder), the external exchange failed (network error, timeout,
non-success status or unparseable response — all of which surface as
`Except.error`), or the exchange parsed but its `title` is absent, empty, or
matches no candidate case-insensitively. -/
def aiFailure (cfg : AIConfig) (candidates : List ShowRec)
    (fetchResult : Except String HFResult) : Prop :=
  cfg.provider ≠ "hf" ∨
  cfg.hf_key = "" ∨
  cfg.hf_key = "PUT_KEY_HERE" ∨
  (∃ e, fetchResult = Except.error e) ∨
  (∃ res, fetchResult = Except.ok res ∧
    (res.title = none ∨ res.title = some "" ∨
      ∃ t, res.title = some t ∧ ∀ c ∈ candidates, jsToLower c.title ≠ jsToLower t))

/-- Configuration with a payload ceiling below the prompt header size, used
to exercise the payload guard on a concrete input. -/
def tinyCfg : AIConfig := { AI_CONFIG with maxPayloadBytes := 10 }

/-- Configuration with a configured API key, used by concrete witnesses of
the successful AI path. -/
def workCfg : AIConfig := { AI_CONFIG with hf_key := "secret" }

/-!
Auxiliary lemmas: strings as character lists.
-/

theorem string_eq_iff_data {s t : String} : s = t ↔ s.data = t.data := by
  constructor
  · intro h; rw [h]
  · intro h; cases s; cases t; cases h; rfl

theorem string_data_append (a b : String) : (a ++ b).data = a.data ++ b.data := rfl

theorem jsToLower_eq_empty_iff {s : String} : jsToLower s = "" ↔ s = "" := by
  rw [string_eq_iff_data, string_eq_iff_data (t := "")]
  simp [jsToLower]

/-!
Auxiliary lemmas: the stable sort `jsSort`.
-/

theorem mem_jsInsert {α : Type} (le : α → α → Bool) (x y : α) :
    ∀ l : List α, y ∈ jsInsert le x l ↔ y = x ∨ y ∈ l := by
  intro l
  induction l with
  | nil => simp [jsInsert]
  | cons z zs ih =>
    by_cases h : le x z = true
    · simp [jsInsert, h]
    · simp only [jsInsert, if_neg h, List.mem_cons, ih]
      tauto

theorem perm_jsInsert {α : Type} (le : α → α → Bool) (x : α) :
    ∀ l : List α, (jsInsert le x l).Perm (x :: l) := by
  intro l
  induction l with
  | nil => simp [jsInsert]
  | cons z zs ih =>
    by_cases h : le x z = true
    · simp [jsInsert, h]
    · simp only [jsInsert, if_neg h]
      exact (ih.cons z).trans (List.Perm.swap x z zs)

theorem perm_jsSort {α : Type} (le : α → α → Bool) :
    ∀ l : List α, (jsSort le l).Perm l := by
  intro l
  induction l with
  | nil => simp [jsSort]
  | cons z zs ih =>
    have : jsSort le (z :: zs) = jsInsert le z (jsSort le zs) := rfl
    rw [this]
    exact (perm_jsInsert le z (jsSort le zs)).trans (ih.cons z)

theorem mem_jsSort {α : Type} (le : α → α → Bool) (l : List α) (x : α) :
    x ∈ jsSort le l ↔ x ∈ l :=
  (perm_jsSort le l).mem_iff

theorem pairwise_jsInsert {α : Type} (le : α → α → Bool)
    (htot : ∀ a b, le a b = true ∨ le b a = true)
    (htrans : ∀ a b c, le a b = true → le b c = true → le a c = true)
    (x : α) : ∀ l : List α, List.Pairwise (fun a b => le a b = true) l →
      List.Pairwise (fun a b => le a b = true) (jsInsert le x l) := by
  intro l
  induction l with
  | nil => intro _; simp [jsInsert]
  | cons z zs ih =>
    intro hp
    rcases List.pairwise_cons.mp hp with ⟨hz, hzs⟩
    by_cases h : le x z = true
    · rw [jsInsert, if_pos h]
      refine List.pairwise_cons.mpr ⟨?_, hp⟩
      intro w hw
      rcases List.mem_cons.mp hw with rfl | hw
      · exact h
      · exact htrans x z w h (hz w hw)
    · rw [jsInsert, if_neg h]
      refine List.pairwise_cons.mpr ⟨?_, ih hzs⟩
      intro w hw
      rcases (mem_jsInsert le x w zs).mp hw with hwx | hw
      · rw [hwx]
        rcases htot x z with hxz | hzx
        · exact absurd hxz h
        · exact hzx
      · exact hz w hw

theorem pairwise_jsSort {α : Type} (le : α → α → Bool)
    (htot : ∀ a b, le a b = true ∨ le b a = true)
    (htrans : ∀ a b c, le a b = true → le b c = true → le a c = true)
    (l : List α) : List.Pairwise (fun a b => le a b = true) (jsSort le l) := by
  induction l with
  | nil => simp [jsSort]
  | cons z zs ih => exact pairwise_jsInsert le htot htrans z (jsSort le zs) ih

theorem nodup_jsSort {α : Type} (le : α → α → Bool) (l : List α) (h : l.Nodup) :
    (jsSort le l).Nodup :=
  (perm_jsSort le l).nodup_iff.mpr h

/-!
Auxiliary lemmas: the string orders used by the two sorts.
-/

theorem lexLe_total : ∀ as bs : List Char, lexLe as bs = true ∨ lexLe bs as = true := by
  intro as
  induction as with
  | nil => intro bs; left; rfl
  | cons a as ih =>
    intro bs
    cases bs with
    | nil => right; rfl
    | cons b bs =>
      by_cases hab : a < b
      · left; simp [lexLe, hab]
      · by_cases hba : b < a
        · right; simp [lexLe, hba]
        · rcases ih bs with h | h
          · left; simp [lexLe, hab, hba, h]
          · right; simp [lexLe, hab, hba, h]

theorem lexLe_trans : ∀ as bs cs : List Char,
    lexLe as bs = true → lexLe bs cs = true → lexLe as cs = true := by
  intro as
  induction as with
  | nil => intro bs cs _ _; rfl
  | cons a as ih =>
    intro bs cs h₁ h₂
    cases bs with
    | nil => simp [lexLe] at h₁
    | cons b bs =>
      cases cs with
      | nil => simp [lexLe] at h₂
      | cons c cs =>
        by_cases hab : a < b
        · by_cases hbc : b < c
          · have hac : a < c := lt_trans hab hbc
            simp [lexLe, hac]
          · by_cases hcb : c < b
            · simp [lexLe, hcb] at h₂
              exact absurd h₂ hbc
            · have hbc' : b = c := le_antisymm (not_lt.mp hcb) (not_lt.mp hbc)
              subst hbc'
              simp [lexLe, hab]
        · by_cases hba : b < a
          · simp [lexLe, hab, hba] at h₁
          · have hba' : a = b := le_antisymm (not_lt.mp hba) (not_lt.mp hab)
            subst hba'
            by_cases hbc : a < c
            · simp [lexLe, hbc]
            · by_cases hcb : c < a
              · simp [lexLe, hcb] at h₂
                exact absurd h₂ hbc
              · have : a = c := le_antisymm (not_lt.mp hcb) (not_lt.mp hbc)
                subst this
                simp only [lexLe, if_neg hbc, if_neg hcb] at h₁ h₂ ⊢
                exact ih _ _ h₁ h₂

theorem byRecency_total : ∀ a b : ShowRec, byRecency a b = true ∨ byRecency b a = true := by
  intro a b
  by_cases h : sortKey b ≤ sortKey a
  · left; simp [byRecency, h]
  · right; simp [byRecency]; exact le_of_lt (not_le.mp h)

theorem byRecency_trans : ∀ a b c : ShowRec,
    byRecency a b = true → byRecency b c = true → byRecency a c = true := by
  intro a b c h₁ h₂
  simp only [byRecency, decide_eq_true_eq] at h₁ h₂ ⊢
  exact le_trans h₂ h₁

/-!
Auxiliary lemmas: the tag set built by `extractUniqueTags`.
-/

theorem mem_addTagToSet (acc : List String) (t x : String) :
    x ∈ addTagToSet acc t ↔ x ∈ acc ∨ x = t := by
  by_cases h : acc.contains t
  · have : t ∈ acc := List.elem_iff.mp h
    simp only [addTagToSet, if_pos h]
    constructor
    · exact Or.inl
    · rintro (hx | rfl)
      · exact hx
      · exact this
  · have ht : t ∉ acc := fun hm => h (List.elem_iff.mpr hm)
    simp [addTagToSet, ht]

theorem nodup_addTagToSet (acc : List String) (t : String) (h : acc.Nodup) :
    (addTagToSet acc t).Nodup := by
  by_cases hc : t ∈ acc
  · simpa [addTagToSet, hc] using h
  · simp only [addTagToSet]
    rw [if_neg (fun hm => hc (List.elem_iff.mp hm))]
    simpa [List.nodup_append] using ⟨h, hc⟩

theorem mem_foldl_addTagToSet (ts : List String) :
    ∀ (acc : List String) (x : String),
      x ∈ ts.foldl addTagToSet acc ↔ x ∈ acc ∨ x ∈ ts := by
  induction ts with
  | nil => intro acc x; simp
  | cons t ts ih =>
    intro acc x
    rw [List.foldl_cons, ih, mem_addTagToSet]
    simp only [List.mem_cons]
    tauto

theorem nodup_foldl_addTagToSet (ts : List String) :
    ∀ acc : List String, acc.Nodup → (ts.foldl addTagToSet acc).Nodup := by
  induction ts with
  | nil => intro acc h; simpa using h
  | cons t ts ih =>
    intro acc h
    rw [List.foldl_cons]
    exact ih _ (nodup_addTagToSet acc t h)

theorem mem_tagSetOf_aux (shows : List ShowRec) :
    ∀ (acc : List String) (x : String),
      x ∈ shows.foldl (fun acc sh => (normTags sh.tags).foldl addTagToSet acc) acc ↔
        x ∈ acc ∨ ∃ sh ∈ shows, x ∈ normTags sh.tags := by
  induction shows with
  | nil => intro acc x; simp
  | cons sh shows ih =>
    intro acc x
    rw [List.foldl_cons, ih, mem_foldl_addTagToSet]
    simp only [List.mem_cons]
    constructor
    · rintro ((hx | hx) | ⟨sh₂, hsh₂, hx⟩)
      · exact Or.inl hx
      · exact Or.inr ⟨sh, Or.inl rfl, hx⟩
      · exact Or.inr ⟨sh₂, Or.inr hsh₂, hx⟩
    · rintro (hx | ⟨sh₂, rfl | hsh₂, hx⟩)
      · exact Or.inl (Or.inl hx)
      · exact Or.inl (Or.inr hx)
      · exact Or.inr ⟨sh₂, hsh₂, hx⟩

theorem mem_tagSetOf (shows : List ShowRec) (x : String) :
    x ∈ tagSetOf shows ↔ ∃ sh ∈ shows, x ∈ normTags sh.tags := by
  rw [tagSetOf, mem_tagSetOf_aux]
  simp

theorem nodup_tagSetOf_aux (shows : List ShowRec) :
    ∀ acc : List String, acc.Nodup →
      (shows.foldl (fun acc sh => (normTags sh.tags).foldl addTagToSet acc) acc).Nodup := by
  induction shows with
  | nil => intro acc h; simpa using h
  | cons sh shows ih =>
    intro acc h
    rw [List.foldl_cons]
    exact ih _ (nodup_foldl_addTagToSet _ acc h)

theorem nodup_tagSetOf (shows : List ShowRec) : (tagSetOf shows).Nodup :=
  nodup_tagSetOf_aux shows [] List.nodup_nil

/-!
Auxiliary lemmas: comma splitting against comma joining.
-/

theorem string_mk_data (s : String) : String.mk s.data = s := by
  cases s; rfl

theorem splitCommaAux_ne_nil : ∀ cs : List Char, splitCommaAux cs ≠ [] := by
  intro cs
  induction cs with
  | nil => simp [splitCommaAux]
  | cons c cs ih =>
    by_cases h : c = ','
    · simp [splitCommaAux, h]
    · simp only [splitCommaAux, if_neg h]
      cases heq : splitCommaAux cs with
      | nil => exact absurd heq ih
      | cons seg rest => simp [consHead]

theorem splitCommaAux_no_comma : ∀ cs : List Char, (∀ c ∈ cs, c ≠ ',') →
    splitCommaAux cs = [cs] := by
  intro cs
  induction cs with
  | nil => intro _; rfl
  | cons c cs ih =>
    intro h
    have hc : c ≠ ',' := h c (List.mem_cons_self c cs)
    have hrest := ih (fun d hd => h d (List.mem_cons_of_mem c hd))
    simp [splitCommaAux, hc, hrest, consHead]

theorem splitCommaAux_append_comma : ∀ (xs rest : List Char), (∀ c ∈ xs, c ≠ ',') →
    splitCommaAux (xs ++ ',' :: rest) = xs :: splitCommaAux rest := by
  intro xs
  induction xs with
  | nil => intro rest _; simp [splitCommaAux]
  | cons x xs ih =>
    intro rest h
    have hx : x ≠ ',' := h x (List.mem_cons_self x xs)
    have hrec := ih rest (fun d hd => h d (List.mem_cons_of_mem x hd))
    rw [List.cons_append]
    have hstep : splitCommaAux (x :: (xs ++ ',' :: rest)) =
        consHead x (splitCommaAux (xs ++ ',' :: rest)) := by
      simp [splitCommaAux, hx]
    rw [hstep, hrec]
    rfl

theorem splitComma_jsJoin : ∀ l : List String, l ≠ [] → (∀ x ∈ l, ',' ∉ x.data) →
    splitComma (jsJoin "," l) = l := by
  intro l
  induction l with
  | nil => intro h _; exact absurd rfl h
  | cons x xs ih =>
    intro _ h
    have hx : ∀ c ∈ x.data, c ≠ ',' := by
      intro c hc hcomma
      exact h x (List.mem_cons_self x xs) (hcomma ▸ hc)
    cases xs with
    | nil =>
      simp only [jsJoin, splitComma, splitCommaAux_no_comma x.data hx, List.map_cons,
        List.map_nil, string_mk_data]
    | cons y ys =>
      have hdata : (x ++ "," ++ jsJoin "," (y :: ys)).data =
          x.data ++ ',' :: (jsJoin "," (y :: ys)).data := by
        rw [string_data_append, string_data_append, List.append_assoc]
        rfl
      have hxs : ∀ z ∈ y :: ys, ',' ∉ z.data :=
        fun z hz => h z (List.mem_cons_of_mem x hz)
      have hrec := ih (by simp) hxs
      simp only [jsJoin, splitComma, hdata, splitCommaAux_append_comma x.data _ hx,
        List.map_cons, string_mk_data]
      rw [splitComma] at hrec
      rw [hrec]

/-!
Auxiliary lemmas: the substring test modelling `String.prototype.includes`.
-/

theorem startsWithList_iff : ∀ needle l : List Char,
    startsWithList l needle = true ↔ ∃ rest, l = needle ++ rest := by
  intro needle
  induction needle with
  | nil => intro l; simp [startsWithList]
  | cons d ds ih =>
    intro l
    cases l with
    | nil => simp [startsWithList]
    | cons c cs =>
      simp only [startsWithList, Bool.and_eq_true, beq_iff_eq, ih]
      constructor
      · rintro ⟨rfl, rest, rfl⟩
        exact ⟨rest, rfl⟩
      · rintro ⟨rest, heq⟩
        rw [List.cons_append] at heq
        injection heq with h1 h2
        exact ⟨h1, rest, h2⟩

theorem containsSub_iff : ∀ hay needle : List Char,
    containsSub hay needle = true ↔ ∃ pre post, hay = pre ++ needle ++ post := by
  intro hay
  induction hay with
  | nil =>
    intro needle
    simp only [containsSub, List.isEmpty_iff]
    constructor
    · rintro rfl; exact ⟨[], [], rfl⟩
    · rintro ⟨pre, post, heq⟩
      rcases List.append_eq_nil.mp (List.append_eq_nil.mp heq.symm).1 with ⟨_, h2⟩
      exact h2
  | cons c cs ih =>
    intro needle
    simp only [containsSub, Bool.or_eq_true, startsWithList_iff, ih]
    constructor
    · rintro (⟨rest, heq⟩ | ⟨pre, post, heq⟩)
      · exact ⟨[], rest, by simpa using heq⟩
      · exact ⟨c :: pre, post, by simp [heq]⟩
    · rintro ⟨pre, post, heq⟩
      cases pre with
      | nil => exact Or.inl ⟨post, by simpa using heq⟩
      | cons p ps =>
        rw [List.cons_append, List.cons_append] at heq
        injection heq with h1 h2
        exact Or.inr ⟨ps, post, h2⟩

theorem jsIncludes_iff (f q : String) (hq : q ≠ "") :
    jsIncludes f q = true ↔ ∃ pre post, (jsToLower f).data = pre ++ q.data ++ post := by
  have hqd : q.data ≠ [] := fun h => hq (string_eq_iff_data.mpr (by simpa using h))
  simp only [jsIncludes, Bool.and_eq_true, bne_iff_ne, ne_eq, containsSub_iff]
  constructor
  · rintro ⟨_, h⟩; exact h
  · rintro ⟨pre, post, heq⟩
    refine ⟨?_, pre, post, heq⟩
    rintro rfl
    have : ([] : List Char) = pre ++ q.data ++ post := by simpa [jsToLower] using heq
    rcases List.append_eq_nil.mp this.symm with ⟨h1, _⟩
    exact hqd (List.append_eq_nil.mp h1).2

/-!
Auxiliary lemmas: the filter predicate as a conjunction of the four
dimension predicates.
-/

theorem bool_guard (a b : Bool) : (if a = true then false else b) = (!a && b) := by
  cases a <;> simp

theorem guard_category (category : String) (sh : ShowRec) :
    (!(category != "all" && sh.type != category)) = true ↔
      (category = "all" ∨ sh.type = category) := by
  by_cases h1 : category = "all" <;> by_cases h2 : sh.type = category <;> simp [h1, h2]

theorem guard_status (status : String) (sh : ShowRec) :
    (!(status != "all" && sh.status != status)) = true ↔
      (status = "all" ∨ sh.status = status) := by
  by_cases h1 : status = "all" <;> by_cases h2 : sh.status = status <;> simp [h1, h2]

theorem guard_tags (selectedTags : List String) (sh : ShowRec) :
    (!(selectedTags.length > 0 && !(selectedTags.all fun t => (normTags sh.tags).contains t))) = true ↔
      ∀ t ∈ selectedTags, t ∈ normTags sh.tags := by
  cases selectedTags with
  | nil => simp
  | cons t ts => simp [List.all_eq_true, List.elem_iff]

theorem guard_search (searchQuery : String) (x : Bool) :
    (!(searchQuery != "" && !x)) = true ↔ (searchQuery = "" ∨ x = true) := by
  by_cases h : searchQuery = "" <;> simp [h]

theorem matchesFilters_iff (category status searchQuery : String)
    (selectedTags : List String) (sh : ShowRec) :
    matchesFilters category status searchQuery selectedTags sh = true ↔
      (category = "all" ∨ sh.type = category) ∧
      (status = "all" ∨ sh.status = status) ∧
      (∀ t ∈ selectedTags, t ∈ normTags sh.tags) ∧
      (searchQuery = "" ∨
        (jsIncludes sh.title searchQuery || jsOptIncludes sh.description searchQuery ||
          jsOptIncludes sh.notes searchQuery) = true) := by
  rw [matchesFilters]
  simp only [bool_guard]
  simp only [Bool.and_eq_true, and_true]
  rw [guard_category, guard_status, guard_tags, guard_search]

theorem jsOptIncludes_iff (o : Option String) (q : String) (hq : q ≠ "") :
    jsOptIncludes o q = true ↔
      ∃ d, o = some d ∧ ∃ pre post, (jsToLower d).data = pre ++ q.data ++ post := by
  cases o with
  | none => simp [jsOptIncludes]
  | some d => simp [jsOptIncludes, jsIncludes_iff d q hq]

/-- C1: a show appears in the filter result iff it independently satisfies
each active dimension — category is "all" or equals the show's type; status
is "all" or equals the show's status; the search text is empty or occurs
case-insensitively inside the title, description or notes; and the show's
normalized tag list contains every selected tag (AND semantics). Empty
selections (category/status "all", empty search, no selected tags) are
neutral for their dimension. -/
theorem c1_filter_membership (shows : List ShowRec) (category status search : String)
    (selectedTags : List String) (sh : ShowRec) :
    sh ∈ applyFilters shows category status search selectedTags ↔
      sh ∈ shows ∧
      (category = "all" ∨ sh.type = category) ∧
      (status = "all" ∨ sh.status = status) ∧
      (search = "" ∨
        (∃ pre post, (jsToLower sh.title).data = pre ++ (jsToLower search).data ++ post) ∨
        (∃ d, sh.description = some d ∧
          ∃ pre post, (jsToLower d).data = pre ++ (jsToLower search).data ++ post) ∨
        (∃ d, sh.notes = some d ∧
          ∃ pre post, (jsToLower d).data = pre ++ (jsToLower search).data ++ post)) ∧
      (∀ t ∈ selectedTags, t ∈ normTags sh.tags) := by
  have reorder : ∀ P A B T S : Prop, (P ∧ A ∧ B ∧ T ∧ S) ↔ (P ∧ A ∧ B ∧ S ∧ T) := by
    intro P A B T S
    tauto
  simp only [applyFilters]
  rw [mem_jsSort, List.mem_filter, matchesFilters_iff]
  by_cases hs : search = ""
  · simp only [hs, jsToLower_eq_empty_iff]
    simp only [eq_self_iff_true, true_or, and_true]
    tauto
  · have hq : jsToLower search ≠ "" := fun hh => hs (jsToLower_eq_empty_iff.mp hh)
    simp only [jsToLower_eq_empty_iff, hs, false_or, Bool.or_eq_true,
      jsIncludes_iff sh.title _ hq, jsOptIncludes_iff sh.description _ hq,
      jsOptIncludes_iff sh.notes _ hq, or_assoc]
    exact reorder _ _ _ _ _

/-- C2 (amended): the filter result is sorted non-increasing by the sort key
that treats a missing `updatedAt` as the epoch timestamp 0; consequently a
show whose `updatedAt` is missing can only be followed by shows whose key is
at most 0, i.e. it sorts after every show with a positive timestamp (but not
necessarily after shows whose timestamp is 0 or negative). -/
theorem c2_sorted_by_recency (shows : List ShowRec) (category status search : String)
    (selectedTags : List String) :
    List.Pairwise (fun a b => sortKey b ≤ sortKey a)
      (applyFilters shows category status search selectedTags) ∧
    (∀ a b : ShowRec,
      List.Sublist [a, b] (applyFilters shows category status search selectedTags) →
      a.updatedAt = none → sortKey b ≤ 0) := by
  have hp : List.Pairwise (fun a b => sortKey b ≤ sortKey a)
      (applyFilters shows category status search selectedTags) := by
    simp only [applyFilters]
    exact (pairwise_jsSort byRecency byRecency_total byRecency_trans _).imp
      (fun h => by simpa [byRecency] using h)
  refine ⟨hp, ?_⟩
  intro a b hsub hupd
  have hpair := List.Pairwise.sublist hsub hp
  have hab := (List.pairwise_cons.mp hpair).1 b (List.mem_cons_self b [])
  have ha : sortKey a = 0 := by simp [sortKey, hupd]
  rw [ha] at hab
  exact hab

/-- C2 counterexample: with one show lacking `updatedAt` and one carrying the
(pre-epoch) timestamp -1, the filter result keeps the missing-timestamp show
first — it does not sort after the show that has a timestamp, because the
code substitutes 0 (the epoch) for a missing value rather than the earliest
possible timestamp. -/
theorem c2_missing_timestamp_counterexample :
    applyFilters [mkShow "A" Tags.undef none, mkShow "B" Tags.undef (some (-1))]
        "all" "all" "" [] =
      [mkShow "A" Tags.undef none, mkShow "B" Tags.undef (some (-1))] ∧
    (mkShow "A" Tags.undef none).updatedAt = none ∧
    (mkShow "B" Tags.undef (some (-1))).updatedAt ≠ none := by
  decide

/-!
Auxiliary lemmas: `selectRandom`.
-/

theorem selectRandom_eq (candidates : List ShowRec) (r : Nat) (h : r < candidates.length) :
    selectRandom candidates r = some candidates[r] := by
  have hlen : candidates.length ≠ 0 := by omega
  simp [selectRandom, hlen, List.getElem?_eq_getElem h]

theorem selectRandom_mem (candidates : List ShowRec) (r : Nat) (sh : ShowRec) :
    selectRandom candidates r = some sh → sh ∈ candidates := by
  intro h
  by_cases hlen : candidates.length = 0
  · simp [selectRandom, hlen] at h
  · simp only [selectRandom, if_neg hlen] at h
    rcases List.getElem?_eq_some.mp h with ⟨hlt, rfl⟩
    exact List.getElem_mem hlt

/-- C8: random selection over the empty candidate list returns `none` (and,
being a total function, never throws); over a non-empty list, with the random
draw landing on index `r < length` — every index being hit by exactly one
value of `Math.floor(Math.random() * length)`, uniformly — it returns
exactly the element at index `r`. -/
theorem c8_random_selection (candidates : List ShowRec) (r : Nat)
    (h : r < candidates.length) :
    (∀ k : Nat, selectRandom [] k = none) ∧
    selectRandom candidates r = some candidates[r] :=
  ⟨fun _ => rfl, selectRandom_eq candidates r h⟩

theorem c8_witness :
    (∀ k : Nat, selectRandom [] k = none) ∧
    selectRandom [mkShow "A" Tags.undef none] 0 = some (mkShow "A" Tags.undef none) :=
  c8_random_selection [mkShow "A" Tags.undef none] 0 (by decide)

/-- C10: neither selector fabricates a show — whenever `selectRandom` or
`selectWithAI` returns a show, that show is an element of the candidate list
passed in (for `selectWithAI`, of the full list, not merely the truncated
prefix enumerated in the prompt). -/
theorem c10_no_fabrication (cfg : AIConfig) (aiToggle : Bool) (candidates : List ShowRec)
    (fetchResult : Except String HFResult) (r : Nat) (sh : ShowRec) :
    (selectRandom candidates r = some sh → sh ∈ candidates) ∧
    (selectWithAI cfg aiToggle candidates fetchResult r = some sh → sh ∈ candidates) := by
  refine ⟨selectRandom_mem candidates r sh, ?_⟩
  intro h
  simp only [selectWithAI] at h
  repeat' split at h
  all_goals try exact selectRandom_mem candidates r sh h
  next heq =>
    injection h with h2
    rw [← h2]
    exact List.mem_of_find?_eq_some heq

/-- C3: on any failure of the AI-assisted path the selector returns exactly
the result of uniform random selection over the same (full) candidate list —
the error is absorbed, never propagated — and therefore, whenever at least
one candidate exists (and the random draw is in range, as
`Math.floor(Math.random()*length)` always is), the user still receives a
recommendation drawn from the candidates. -/
theorem c3_failure_falls_back (cfg : AIConfig) (candidates : List ShowRec)
    (fetchResult : Except String HFResult) (r : Nat)
    (h : aiFailure cfg candidates fetchResult) :
    selectWithAI cfg true candidates fetchResult r = selectRandom candidates r ∧
    (candidates ≠ [] → r < candidates.length →
      ∃ c ∈ candidates, selectWithAI cfg true candidates fetchResult r = some c) := by
  have hmain : selectWithAI cfg true candidates fetchResult r = selectRandom candidates r := by
    by_cases hsize :
        (buildPrompt (candidates.take cfg.maxCandidates)).utf8ByteSize > cfg.maxPayloadBytes
    · simp [selectWithAI, hsize]
    · rcases h with hprov | hkey | hkey | ⟨e, rfl⟩ | ⟨res, rfl, hres⟩
      · simp [selectWithAI, hsize, hprov]
      · simp [selectWithAI, hsize, hkey]
      · simp [selectWithAI, hsize, hkey]
      · simp [selectWithAI, hsize, ite_self]
      · rcases hres with htitle | htitle | ⟨t, htitle, hall⟩
        · simp [selectWithAI, hsize, htitle, ite_self]
        · simp [selectWithAI, hsize, htitle, ite_self]
        · have hfind : candidates.find? (fun sh => jsToLower sh.title == jsToLower t) = none :=
            List.find?_eq_none.mpr (fun x hx => by simpa using hall x hx)
          simp [selectWithAI, hsize, htitle, hfind, ite_self]
  refine ⟨hmain, fun _ hr => ?_⟩
  rw [hmain]
  exact ⟨candidates[r], List.getElem_mem hr, selectRandom_eq candidates r hr⟩

theorem c3_witness :
    selectWithAI AI_CONFIG true [mkShow "A" Tags.undef none]
        (Except.error "network error") 0 =
      selectRandom [mkShow "A" Tags.undef none] 0 ∧
    ([mkShow "A" Tags.undef none] ≠ [] → 0 < [mkShow "A" Tags.undef none].length →
      ∃ c ∈ [mkShow "A" Tags.undef none],
        selectWithAI AI_CONFIG true [mkShow "A" Tags.undef none]
          (Except.error "network error") 0 = some c) :=
  c3_failure_falls_back AI_CONFIG [mkShow "A" Tags.undef none]
    (Except.error "network error") 0
    (Or.inr (Or.inr (Or.inr (Or.inl ⟨"network error", rfl⟩))))

/-- C5: the AI-assisted selector truncates the candidates to
`maxCandidates`, builds the prompt from the truncated list, and when that
prompt's UTF-8 byte size exceeds `maxPayloadBytes` it falls back to uniform
random selection over the full candidate list no matter what the network
would have answered — i.e. without issuing the network request (the result
does not depend on the exchange outcome). -/
theorem c5_payload_ceiling (cfg : AIConfig) (candidates : List ShowRec) (r : Nat)
    (h : (buildPrompt (candidates.take cfg.maxCandidates)).utf8ByteSize > cfg.maxPayloadBytes) :
    ∀ fetchResult : Except String HFResult,
      selectWithAI cfg true candidates fetchResult r = selectRandom candidates r := by
  intro fetchResult
  simp [selectWithAI, h]

set_option maxRecDepth 8000 in
theorem c5_witness :
    selectWithAI tinyCfg true [] (Except.error "never sent") 0 = selectRandom [] 0 :=
  c5_payload_ceiling tinyCfg [] 0 (by decide) (Except.error "never sent")

/-- C7: when the exchange succeeds and yields a (non-empty) suggested title,
the selector returns a candidate precisely by exact case-insensitive string
equality of titles — if some candidate's lower-cased title equals the
lower-cased suggestion, a candidate with exactly that property is returned;
with no such candidate (no trimming, no fuzzy matching is attempted) it
falls back to uniform random selection. -/
theorem c7_exact_title_match (cfg : AIConfig) (candidates : List ShowRec) (res : HFResult)
    (t : String) (r : Nat) (hprov : cfg.provider = "hf") (hk1 : cfg.hf_key ≠ "")
    (hk2 : cfg.hf_key ≠ "PUT_KEY_HERE")
    (hsize : ¬ (buildPrompt (candidates.take cfg.maxCandidates)).utf8ByteSize > cfg.maxPayloadBytes)
    (ht : res.title = some t) (hne : t ≠ "") :
    ((∃ c ∈ candidates, jsToLower c.title = jsToLower t) →
      ∃ c ∈ candidates, jsToLower c.title = jsToLower t ∧
        selectWithAI cfg true candidates (Except.ok res) r = some c) ∧
    ((∀ c ∈ candidates, jsToLower c.title ≠ jsToLower t) →
      selectWithAI cfg true candidates (Except.ok res) r = selectRandom candidates r) := by
  have hred : selectWithAI cfg true candidates (Except.ok res) r =
      (match candidates.find? (fun sh => jsToLower sh.title == jsToLower t) with
        | some selectedShow => some selectedShow
        | none => selectRandom candidates r) := by
    simp [selectWithAI, hsize, hprov, hk1, hk2, ht, hne]
  constructor
  · rintro ⟨c, hc, hct⟩
    have hsome : (candidates.find? (fun sh => jsToLower sh.title == jsToLower t)).isSome :=
      List.find?_isSome.mpr ⟨c, hc, by simpa using hct⟩
    rcases Option.isSome_iff_exists.mp hsome with ⟨c0, hc0⟩
    refine ⟨c0, List.mem_of_find?_eq_some hc0, ?_, ?_⟩
    · simpa using List.find?_some hc0
    · rw [hred, hc0]
  · intro hall
    have hnone : candidates.find? (fun sh => jsToLower sh.title == jsToLower t) = none :=
      List.find?_eq_none.mpr (fun x hx => by simpa using hall x hx)
    rw [hred, hnone]

/-- C4 counterexample: the comma-joined form of the one-element sequence
containing the empty string is the empty string, and the two representations
extract different tag sets — the empty-string `tags` field is falsy in JS
and contributes nothing, while the sequence containing the empty string
contributes the empty tag. -/
theorem c4_tags_representation_counterexample :
    jsJoin "," [""] = "" ∧
    extractUniqueTags [mkShow "A" (Tags.str (jsJoin "," [""])) none] = [] ∧
    extractUniqueTags [mkShow "A" (Tags.arr [""]) none] = [""] := by
  decide

/-- C4 (amended): tag extraction yields a lexicographically sorted,
duplicate-free list in which every entry is the trimmed lower-casing of some
raw tag of some show, and shows with an absent or unrecognized tags field
contribute nothing (their `rawTags` is empty); a comma-joined string and the
corresponding sequence extract identical tag sets whenever the joined string
is non-empty (and the tags themselves contain no comma) — the lone exception
being the empty join, as the counterexample shows; and extraction only
depends on shows through their normalized tag lists, so two collections
agreeing on those extract identical results. -/
theorem c4_tag_extraction (shows : List ShowRec) :
    List.Pairwise (fun a b => jsStrLe a b = true) (extractUniqueTags shows) ∧
    (extractUniqueTags shows).Nodup ∧
    (∀ t ∈ extractUniqueTags shows, ∃ sh ∈ shows, ∃ raw ∈ rawTags sh.tags, t = normTag raw) ∧
    (∀ l : List String, (∀ x ∈ l, ',' ∉ x.data) → jsJoin "," l ≠ "" →
      normTags (Tags.str (jsJoin "," l)) = normTags (Tags.arr l)) ∧
    (∀ (pre post : List ShowRec) (sh₁ sh₂ : ShowRec),
      normTags sh₁.tags = normTags sh₂.tags →
      extractUniqueTags (pre ++ sh₁ :: post) = extractUniqueTags (pre ++ sh₂ :: post)) := by
  refine ⟨?_, ?_, ?_, ?_, ?_⟩
  · exact pairwise_jsSort jsStrLe (fun a b => lexLe_total a.data b.data)
      (fun a b c => lexLe_trans a.data b.data c.data) (tagSetOf shows)
  · exact nodup_jsSort jsStrLe _ (nodup_tagSetOf shows)
  · intro t ht
    rw [extractUniqueTags, mem_jsSort, mem_tagSetOf] at ht
    rcases ht with ⟨sh, hsh, htag⟩
    rcases List.mem_map.mp htag with ⟨raw, hraw, heq⟩
    exact ⟨sh, hsh, raw, hraw, heq.symm⟩
  · intro l hcomma hne
    have hl : l ≠ [] := by rintro rfl; exact hne rfl
    simp [normTags, rawTags, hne, splitComma_jsJoin l hl hcomma]
  · intro pre post sh₁ sh₂ hnorm
    simp only [extractUniqueTags, tagSetOf, List.foldl_append, List.foldl_cons]
    rw [hnorm]

/-!
Auxiliary lemmas: locating the first and last brace of a blob.
-/

theorem firstIdxOf_cons_self (c : Char) (ys : List Char) :
    firstIdxOf c (c :: ys) = some 0 := by
  simp [firstIdxOf]

theorem firstIdxOf_append_not_mem (c : Char) (xs ys : List Char) (h : c ∉ xs) :
    firstIdxOf c (xs ++ ys) = (firstIdxOf c ys).map (fun n => n + xs.length) := by
  induction xs with
  | nil =>
    simp only [List.nil_append, List.length_nil]
    cases firstIdxOf c ys <;> simp
  | cons x xs ih =>
    have hx : x ≠ c := fun hxc => h (hxc ▸ List.mem_cons_self x xs)
    have ih2 := ih (fun hm => h (List.mem_cons_of_mem x hm))
    rw [List.cons_append, firstIdxOf, if_neg hx, ih2]
    cases firstIdxOf c ys with
    | none => simp
    | some n => simp; omega

theorem lastIdxOf_append (c : Char) (xs ys : List Char) (h : c ∉ ys) :
    lastIdxOf c (xs ++ c :: ys) = some xs.length := by
  have hnm : c ∉ ys.reverse := by simpa using h
  rw [lastIdxOf]
  have hrev : (xs ++ c :: ys).reverse = ys.reverse ++ c :: xs.reverse := by simp
  rw [hrev, firstIdxOf_append_not_mem c ys.reverse _ hnm, firstIdxOf_cons_self]
  simp only [Option.map_some', List.length_reverse, List.length_append, List.length_cons,
    Option.some.injEq]
  omega

/-- C6 counterexample: on a blob holding two JSON objects the regex match is
the greedy span from the first opening brace to the last closing brace, not
the first top-level brace-delimited span; consequently a parser that accepts
exactly the first top-level span still sees the call fail, because the code
hands it the greedy span. -/
theorem c6_greedy_not_first_span_counterexample :
    braceMatch "x \x7b\"title\":\"A\"\x7d mid \x7b\"title\":\"B\"\x7d y" ≠
      specFirstTopLevelSpan "x \x7b\"title\":\"A\"\x7d mid \x7b\"title\":\"B\"\x7d y" ∧
    specFirstTopLevelSpan "x \x7b\"title\":\"A\"\x7d mid \x7b\"title\":\"B\"\x7d y" =
      some "\x7b\"title\":\"A\"\x7d" ∧
    braceMatch "x \x7b\"title\":\"A\"\x7d mid \x7b\"title\":\"B\"\x7d y" =
      some "\x7b\"title\":\"A\"\x7d mid \x7b\"title\":\"B\"\x7d" ∧
    fetchHuggingFace
      (Except.ok ⟨true, some "x \x7b\"title\":\"A\"\x7d mid \x7b\"title\":\"B\"\x7d y"⟩)
      (fun sub => if sub = "\x7b\"title\":\"A\"\x7d" then some ⟨some "A"⟩ else none) =
      Except.error "JSON.parse failure" := by
  refine ⟨by decide, by decide, by decide, ?_⟩
  rfl

/-- C6 (amended): the extraction step selects the span from the first
opening brace to the last closing brace of the blob (the greedy regex
match), parses exactly that substring, and treats a missing span or a parse
failure as a failed call; a successful parse of the selected span is the
call's result. -/
theorem c6_greedy_brace_extraction :
    (∀ (s : String) (pre mid post : List Char),
      s.data = pre ++ '\x7b' :: (mid ++ '\x7d' :: post) →
      '\x7b' ∉ pre → '\x7d' ∉ post →
      braceMatch s = some (String.mk ('\x7b' :: (mid ++ ['\x7d'])))) ∧
    (∀ (parseJson : String → Option HFResult) (resp : HFResponse) (g : String),
      resp.ok = true → resp.generatedText = some g → braceMatch g = none →
      fetchHuggingFace (Except.ok resp) parseJson =
        Except.error "No valid JSON found in response") ∧
    (∀ (parseJson : String → Option HFResult) (resp : HFResponse) (g sub : String)
      (result : HFResult),
      resp.ok = true → resp.generatedText = some g → braceMatch g = some sub →
      parseJson sub = some result →
      fetchHuggingFace (Except.ok resp) parseJson = Except.ok result) := by
  refine ⟨?_, ?_, ?_⟩
  · intro s pre mid post hdata hpre hpost
    have hi : firstIdxOf '\x7b' s.data = some pre.length := by
      rw [hdata, firstIdxOf_append_not_mem _ _ _ hpre, firstIdxOf_cons_self]
      simp
    have hj : lastIdxOf '\x7d' s.data = some (pre.length + mid.length + 1) := by
      have hshape : s.data = (pre ++ '\x7b' :: mid) ++ '\x7d' :: post := by
        rw [hdata]; simp
      rw [hshape, lastIdxOf_append _ _ _ hpost]
      simp only [List.length_append, List.length_cons, Option.some.injEq]
      omega
    simp only [braceMatch, braceSpan, hi, hj]
    rw [if_pos (show pre.length < pre.length + mid.length + 1 by omega)]
    have hdrop : s.data.drop pre.length = '\x7b' :: (mid ++ '\x7d' :: post) := by
      rw [hdata]; exact List.drop_left pre _
    have hsplit : ('\x7b' :: (mid ++ '\x7d' :: post)) =
        ('\x7b' :: (mid ++ ['\x7d'])) ++ post := by simp
    have hcount : pre.length + mid.length + 1 + 1 - pre.length =
        ('\x7b' :: (mid ++ ['\x7d'])).length := by
      simp only [List.length_cons, List.length_append, List.length_nil]
      omega
    rw [hdrop, hsplit, hcount, List.take_left]
    rfl
  · intro parseJson resp g hok hg hnone
    simp [fetchHuggingFace, hok, hg, hnone]
  · intro parseJson resp g sub result hok hg hsub hparse
    simp [fetchHuggingFace, hok, hg, hsub, hparse]

/-!
Auxiliary lemmas: the sentence splitter of the presenter.
-/

theorem splitSentencesAux_no_boundary : ∀ xs : List Char,
    (∀ c ∈ xs, isBoundaryChar c = false) → splitSentencesAux xs = [xs] := by
  intro xs
  induction xs with
  | nil => intro _; rfl
  | cons x xs ih =>
    intro h
    have hx : isBoundaryChar x = false := h x (List.mem_cons_self x xs)
    have hrest := ih (fun c hc => h c (List.mem_cons_of_mem x hc))
    simp [splitSentencesAux, hx, hrest, consHead]

theorem splitSentencesAux_append (xs : List Char)
    (hxs : ∀ c ∈ xs, isBoundaryChar c = false) :
    ∀ (cs hseg : List Char) (t : List (List Char)),
      splitSentencesAux cs = hseg :: t →
      splitSentencesAux (xs ++ cs) = (xs ++ hseg) :: t := by
  induction xs with
  | nil => intro cs hseg t h; simpa using h
  | cons x xs ih =>
    intro cs hseg t h
    have hx : isBoundaryChar x = false := hxs x (List.mem_cons_self x xs)
    have ih2 := ih (fun c hc => hxs c (List.mem_cons_of_mem x hc)) cs hseg t h
    rw [List.cons_append]
    have hstep : splitSentencesAux (x :: (xs ++ cs)) =
        consHead x (splitSentencesAux (xs ++ cs)) := by
      simp [splitSentencesAux, hx]
    rw [hstep, ih2]
    rfl

theorem splitSentencesAux_members : ∀ (cs : List Char), ∀ seg ∈ splitSentencesAux cs,
    ∀ c ∈ seg, isBoundaryChar c = false := by
  intro cs
  induction cs with
  | nil =>
    intro seg hseg c hc
    simp only [splitSentencesAux, List.mem_singleton] at hseg
    subst hseg
    simp at hc
  | cons x xs ih =>
    intro seg hseg c hc
    by_cases hb : isBoundaryChar x = true
    · cases xs with
      | nil =>
        simp only [splitSentencesAux, hb, if_true] at hseg
        rcases List.mem_cons.mp hseg with rfl | hseg
        · simp at hc
        · simp only [splitSentencesAux, List.mem_singleton] at hseg
          subst hseg
          simp at hc
      | cons y ys =>
        simp only [splitSentencesAux, hb, if_true] at hseg
        by_cases hy : isBoundaryChar y = true
        · rw [if_pos hy] at hseg
          exact ih seg hseg c hc
        · rw [if_neg hy] at hseg
          rcases List.mem_cons.mp hseg with rfl | hseg
          · simp at hc
          · exact ih seg hseg c hc
    · have hx : isBoundaryChar x = false := by
        cases hxx : isBoundaryChar x
        · rfl
        · exact absurd hxx hb
      simp only [splitSentencesAux, hx, Bool.false_eq_true, if_false] at hseg
      cases haux : splitSentencesAux xs with
      | nil =>
        rw [haux] at hseg
        simp only [consHead, List.mem_singleton] at hseg
        subst hseg
        rcases List.mem_singleton.mp hc with rfl
        exact hx
      | cons s t =>
        rw [haux] at hseg
        simp only [consHead] at hseg
        rcases List.mem_cons.mp hseg with rfl | hseg
        · rcases List.mem_cons.mp hc with rfl | hc
          · exact hx
          · exact ih s (haux ▸ List.mem_cons_self s t) c hc
        · exact ih seg (haux ▸ List.mem_cons_of_mem s hseg) c hc

theorem splitSentencesAux_two_sentences (s0 s1 : List Char)
    (h0 : ∀ c ∈ s0, isBoundaryChar c = false) (h1 : ∀ c ∈ s1, isBoundaryChar c = false) :
    splitSentencesAux (s0 ++ '.' :: (s1 ++ ['.'])) =
      if s1 = [] then [s0, []] else [s0, s1, []] := by
  cases s1 with
  | nil =>
    rw [if_pos rfl]
    have htail : splitSentencesAux ['.', '.'] = [[], []] := by decide
    have := splitSentencesAux_append s0 h0 ['.', '.'] [] [[]] htail
    simpa using this
  | cons d ds =>
    have hd : isBoundaryChar d = false := h1 d (List.mem_cons_self d ds)
    have hstep : splitSentencesAux ('.' :: ((d :: ds) ++ ['.'])) =
        [] :: splitSentencesAux ((d :: ds) ++ ['.']) := by
      have hexp : splitSentencesAux ('.' :: ((d :: ds) ++ ['.'])) =
          if isBoundaryChar d = true then splitSentencesAux ((d :: ds) ++ ['.'])
          else [] :: splitSentencesAux ((d :: ds) ++ ['.']) := by
        rw [List.cons_append]
        rfl
      rw [hexp, if_neg (by rw [hd]; exact Bool.false_ne_true)]
    have hinner : splitSentencesAux ((d :: ds) ++ ['.']) = [d :: ds, []] := by
      have h2 : splitSentencesAux ['.'] = [[], []] := by decide
      have := splitSentencesAux_append (d :: ds) h1 ['.'] [] [[]] h2
      simpa using this
    have hfull := splitSentencesAux_append s0 h0 ('.' :: ((d :: ds) ++ ['.'])) []
      (splitSentencesAux ((d :: ds) ++ ['.'])) hstep
    rw [if_neg (List.cons_ne_nil d ds)]
    rw [hfull, hinner]
    simp

theorem truncateDescription_two_sentences (d : String) :
    ((splitSentences (truncateDescription d)).filter (fun x => x != "")).length ≤ 2 := by
  rw [truncateDescription]
  by_cases hlen : (splitSentences d).length > 2
  · rw [if_pos hlen]
    have hex : ∃ a b rest, splitSentencesAux d.data = a :: b :: rest := by
      rcases hL : splitSentencesAux d.data with _ | ⟨a, _ | ⟨b, rest⟩⟩
      · rw [splitSentences, hL] at hlen; simp at hlen
      · rw [splitSentences, hL] at hlen; simp at hlen
      · exact ⟨a, b, rest, rfl⟩
    rcases hex with ⟨a, b, rest, hab⟩
    have htake : (splitSentences d).take 2 = [String.mk a, String.mk b] := by
      simp [splitSentences, hab]
    rw [htake]
    have hdata : (jsJoin "." [String.mk a, String.mk b] ++ ".").data =
        a ++ '.' :: (b ++ ['.']) := by
      simp [jsJoin, string_data_append]
    have ha : ∀ c ∈ a, isBoundaryChar c = false :=
      splitSentencesAux_members d.data a (hab ▸ List.mem_cons_self a (b :: rest))
    have hb : ∀ c ∈ b, isBoundaryChar c = false :=
      splitSentencesAux_members d.data b
        (hab ▸ List.mem_cons_of_mem a (List.mem_cons_self b rest))
    rw [splitSentences, hdata, splitSentencesAux_two_sentences a b ha hb]
    by_cases hbnil : b = []
    · rw [if_pos hbnil]
      exact le_trans (List.length_filter_le _ _) (by simp)
    · rw [if_neg hbnil]
      have hsplit3 : List.map (fun cs => String.mk cs) [a, b, []] =
          [String.mk a, String.mk b] ++ [""] := rfl
      rw [hsplit3, List.filter_append]
      have hlast : List.filter (fun x => x != "") [""] = [] := by decide
      rw [hlast, List.append_nil]
      exact le_trans (List.length_filter_le _ _) (by simp)
  · rw [if_neg hlen]
    exact le_trans (List.length_filter_le _ _) (by omega)

/-!
Auxiliary lemmas: the HTML escaper removes every special character.
-/

theorem escapeChar_no_specials (c : Char) :
    ∀ x ∈ escapeChar c, x ≠ '<' ∧ x ≠ '>' ∧ x ≠ '"' ∧ x ≠ '\x27' := by
  rw [escapeChar]
  split_ifs with h1 h2 h3 h4 h5
  · decide
  · decide
  · decide
  · decide
  · decide
  · intro x hx
    rcases List.mem_singleton.mp hx with rfl
    exact ⟨h2, h3, h4, h5⟩

theorem escape_fold_no_specials : ∀ (cs : List Char) (x : Char),
    x ∈ cs.foldr (fun c acc => escapeChar c ++ acc) [] →
    x ≠ '<' ∧ x ≠ '>' ∧ x ≠ '"' ∧ x ≠ '\x27' := by
  intro cs
  induction cs with
  | nil => intro x hx; simp at hx
  | cons c cs ih =>
    intro x hx
    rw [List.foldr_cons] at hx
    rcases List.mem_append.mp hx with hx | hx
    · exact escapeChar_no_specials c x hx
    · exact ih x hx

theorem escapeHtml_no_specials (s : String) :
    ∀ x ∈ (escapeHtml s).data, x ≠ '<' ∧ x ≠ '>' ∧ x ≠ '"' ∧ x ≠ '\x27' := by
  rw [escapeHtml]
  split_ifs with h
  · intro x hx; simp at hx
  · intro x hx; exact escape_fold_no_specials s.data x hx

/-- C9: the presenter maps the empty selection to the empty-state panel and
any selected show to a result card whose title is the HTML-escaped show
title and whose description is the HTML-escaped truncation of the show's
description to its first two sentences (boundaries being any run of the
characters period, exclamation mark or question mark): the rendered
description always splits into at most two non-empty sentence segments, and
escaped text never contains a raw angle bracket or quote character. -/
theorem c9_presenter_rendering :
    showResult none = RenderResult.emptyState ∧
    (∀ sh : ShowRec, showResult (some sh) =
      RenderResult.card (jsOrS sh.posterDataUrl (jsOrS sh.posterUrl ""))
        (escapeHtml sh.title) (escapeHtml (truncateDescription (descOf sh)))) ∧
    (∀ d : String,
      ((splitSentences (truncateDescription d)).filter (fun x => x != "")).length ≤ 2) ∧
    (∀ s : String, ∀ x ∈ (escapeHtml s).data, x ≠ '<' ∧ x ≠ '>' ∧ x ≠ '"' ∧ x ≠ '\x27') :=
  ⟨rfl, fun _ => rfl, truncateDescription_two_sentences, escapeHtml_no_specials⟩

set_option maxRecDepth 8000 in
theorem c7_witness :
    ∃ c ∈ [mkShow "Alpha" Tags.undef none],
      jsToLower c.title = jsToLower "ALPHA" ∧
      selectWithAI workCfg true [mkShow "Alpha" Tags.undef none]
        (Except.ok ⟨some "ALPHA"⟩) 0 = some c :=
  (c7_exact_title_match workCfg [mkShow "Alpha" Tags.undef none] ⟨some "ALPHA"⟩ "ALPHA" 0
      rfl (by decide) (by decide) (by decide) rfl (by decide)).1
    ⟨mkShow "Alpha" Tags.undef none, by decide, by decide⟩

